import Mathlib

/-!
Verification of the MNIST drawing demo (`src/MNIST/Linux/MNIST.cpp`).

A shallow embedding of the core of the program: the image normalizer
`MNISTModel::convertImage`, the numerically stable `softmax`, the arg-max
scan of `MNISTModel::Run`, and the error-propagation structure of `main`.

Conventions of the embedding:

* Pixel bytes (`uint8_t`) are natural numbers, constrained to `≤ 255` where a
  statement needs it.
* `float` arithmetic in the normalizer is exact on the values involved up to
  the usual idealisation; we model it with rational numbers `ℚ`.
* `float` arithmetic in the softmax involves `exp` and is modelled over the
  real numbers `ℝ`.
* The ONNX Runtime engine (session construction and `Session::Run`) is
  external to the repository; its behaviour is a parameter of the model
  (`Except`-valued functions), following the spec's description of when it
  throws.  C++ exception propagation is modelled by the `Except` monad; an
  exception that reaches the top of `main` uncaught is a crash
  (`ProcessOutcome.crashed`), a `return code;` is `ProcessOutcome.exited`.
-/

/-- Constant `static constexpr int MNIST_WIDTH = 28;` (MNIST.cpp line 13). -/
def MNIST_WIDTH : Nat := 28

/-- Constant `static constexpr int MNIST_HEIGHT = 28;` (MNIST.cpp line 14). -/
def MNIST_HEIGHT : Nat := 28

/-- Source row `int srcY = row * bigHeight / MNIST_HEIGHT;` (MNIST.cpp line 90):
nearest-neighbour source row, integer division. -/
def srcY (bigHeight row : Nat) : Nat := row * bigHeight / MNIST_HEIGHT

/-- Source column `int srcX = col * bigWidth / MNIST_WIDTH;` (MNIST.cpp line 91):
nearest-neighbour source column, integer division. -/
def srcX (bigWidth col : Nat) : Nat := col * bigWidth / MNIST_WIDTH

/-- One cell of `MNISTModel::convertImage` (MNIST.cpp lines 89-104): read the
R, G, B bytes of the source pixel at `(srcY, srcX)` (4 bytes per pixel, RGBA),
average them to `val ∈ [0,255]`, and store `(255 - val) / 255`.
Out-of-range reads (which never happen under the caller's contract, see
`convertImage_access_inbounds`) are modelled as reading `0`. -/
def convertImageCell (sdl_pixels : List Nat) (bigWidth bigHeight row col : Nat) : ℚ :=
  let idx := (srcY bigHeight row * bigWidth + srcX bigWidth col) * 4
  let r := sdl_pixels.getD (idx + 0) 0
  let g := sdl_pixels.getD (idx + 1) 0
  let b := sdl_pixels.getD (idx + 2) 0
  let val : ℚ := ((r + g + b : Nat) : ℚ) / 3
  (255 - val) / 255

/-- Function `MNISTModel::convertImage` (MNIST.cpp lines 81-107).  The C++ loop first
zero-fills `input_image_` and then writes every flat index
`row * MNIST_WIDTH + col` for `row < MNIST_HEIGHT`, `col < MNIST_WIDTH`
exactly once, so the resulting array is the row-major list of the 28×28 cell
values; flat index `i` holds the cell for `row = i / 28`, `col = i % 28`. -/
def convertImage (sdl_pixels : List Nat) (bigWidth bigHeight : Nat) : List ℚ :=
  (List.range (MNIST_HEIGHT * MNIST_WIDTH)).map fun i =>
    convertImageCell sdl_pixels bigWidth bigHeight (i / MNIST_WIDTH) (i % MNIST_WIDTH)

/-- The normalizer cell formula as the spec words it (§4.1): `L` is the
average of the three colour channels of the source pixel at
`srcY = r*H/28`, `srcX = c*W/28`, and the output cell is `(255 - L) / 255`. -/
def normalizeSpecCell (pixels : List Nat) (W H r c : Nat) : ℚ :=
  let sY := r * H / 28
  let sX := c * W / 28
  let base := (sY * W + sX) * 4
  let L : ℚ := ((pixels.getD base 0 + pixels.getD (base + 1) 0
      + pixels.getD (base + 2) 0 : Nat) : ℚ) / 3
  (255 - L) / 255

/-- A `getD` read from a list of bytes is a byte (or the default `0`). -/
theorem getD_le_of_bytes {pixels : List Nat} (hbytes : ∀ b ∈ pixels, b ≤ 255)
    (i : Nat) : pixels.getD i 0 ≤ 255 := by
  rcases h : pixels[i]? with _ | a
  · simp [List.getD, h]
  · have ha : a ∈ pixels := List.getElem?_mem h
    simpa [List.getD, h] using hbytes a ha

/-- Each cell value lies in `[0, 1]` as soon as every byte of the buffer is a
genuine byte (`≤ 255`). -/
theorem convertImageCell_mem_unit {pixels : List Nat}
    (hbytes : ∀ b ∈ pixels, b ≤ 255) (W H row col : Nat) :
    0 ≤ convertImageCell pixels W H row col ∧ convertImageCell pixels W H row col ≤ 1 := by
  unfold convertImageCell
  set i := (srcY H row * W + srcX W col) * 4 with hi
  have hr := getD_le_of_bytes hbytes (i + 0)
  have hg := getD_le_of_bytes hbytes (i + 1)
  have hb := getD_le_of_bytes hbytes (i + 2)
  have hsum : ((pixels.getD (i + 0) 0 + pixels.getD (i + 1) 0 + pixels.getD (i + 2) 0 : Nat) : ℚ)
      ≤ 765 := by
    have : (pixels.getD (i + 0) 0 + pixels.getD (i + 1) 0 + pixels.getD (i + 2) 0 : Nat)
        ≤ 765 := by omega
    exact_mod_cast this
  have hnn : (0 : ℚ) ≤
      ((pixels.getD (i + 0) 0 + pixels.getD (i + 1) 0 + pixels.getD (i + 2) 0 : Nat) : ℚ) :=
    Nat.cast_nonneg _
  constructor
  · have : ((pixels.getD (i + 0) 0 + pixels.getD (i + 1) 0 + pixels.getD (i + 2) 0 : Nat) : ℚ) / 3
        ≤ 255 := by linarith
    have h255 : (0 : ℚ) ≤ 255 -
        ((pixels.getD (i + 0) 0 + pixels.getD (i + 1) 0 + pixels.getD (i + 2) 0 : Nat) : ℚ) / 3 := by
      linarith
    positivity
  · rw [div_le_one (by norm_num : (0:ℚ) < 255)]
    have : (0 : ℚ) ≤
        ((pixels.getD (i + 0) 0 + pixels.getD (i + 1) 0 + pixels.getD (i + 2) 0 : Nat) : ℚ) / 3 := by
      positivity
    linarith

/-- C9: under the caller's contract (`W ≥ 1`, `H ≥ 1`, buffer length `W*H*4`),
every source access of `convertImage` is in bounds: for target coordinates
`r, c < 28` the source coordinates satisfy `srcY < H` and `srcX < W`, and every
byte index `(srcY*W + srcX)*4 + k`, `k ∈ {0,1,2}`, is below the buffer length
`W*H*4`. -/
theorem convertImage_access_inbounds (W H r c k : Nat)
    (hW : 1 ≤ W) (hH : 1 ≤ H) (hr : r < 28) (hc : c < 28) (hk : k < 3) :
    srcY H r < H ∧ srcX W c < W ∧ (srcY H r * W + srcX W c) * 4 + k < W * H * 4 := by
  have h28 : (0:Nat) < 28 := by norm_num
  have hy : srcY H r < H := by
    rw [srcY, MNIST_HEIGHT, Nat.div_lt_iff_lt_mul h28]
    calc r * H ≤ 27 * H := Nat.mul_le_mul_right H (by omega)
    _ < 28 * H := (Nat.mul_lt_mul_right (hH : 0 < H)).mpr (by norm_num)
    _ = H * 28 := Nat.mul_comm _ _
  have hx : srcX W c < W := by
    rw [srcX, MNIST_WIDTH, Nat.div_lt_iff_lt_mul h28]
    calc c * W ≤ 27 * W := Nat.mul_le_mul_right W (by omega)
    _ < 28 * W := (Nat.mul_lt_mul_right (hW : 0 < W)).mpr (by norm_num)
    _ = W * 28 := Nat.mul_comm _ _
  refine ⟨hy, hx, ?_⟩
  have hsucc : srcY H r + 1 ≤ H := hy
  have hmul : (srcY H r + 1) * W ≤ H * W := Nat.mul_le_mul_right W hsucc
  have hlin : srcY H r * W + srcX W c < H * W := by
    have : srcY H r * W + srcX W c < srcY H r * W + W := Nat.add_lt_add_left hx _
    calc srcY H r * W + srcX W c < srcY H r * W + W := this
    _ = (srcY H r + 1) * W := by ring
    _ ≤ H * W := hmul
  have hstep : (srcY H r * W + srcX W c) * 4 + k < (srcY H r * W + srcX W c) * 4 + 4 :=
    Nat.add_lt_add_left (by omega) _
  have hfin : (srcY H r * W + srcX W c) * 4 + 4 ≤ H * W * 4 := by
    have := Nat.mul_le_mul_right 4 (Nat.succ_le_of_lt hlin)
    calc (srcY H r * W + srcX W c) * 4 + 4 = (srcY H r * W + srcX W c + 1) * 4 := by ring
    _ ≤ H * W * 4 := this
  have : (srcY H r * W + srcX W c) * 4 + k < H * W * 4 := lt_of_lt_of_le hstep hfin
  calc (srcY H r * W + srcX W c) * 4 + k < H * W * 4 := this
  _ = W * H * 4 := by ring

/-- C9 witness: the bounds hold at `W = H = 112`, `r = 27`, `c = 27`, `k = 2`. -/
theorem convertImage_access_inbounds_witness :
    srcY 112 27 < 112 ∧ srcX 112 27 < 112 ∧
      (srcY 112 27 * 112 + srcX 112 27) * 4 + 2 < 112 * 112 * 4 :=
  convertImage_access_inbounds 112 112 27 27 2 (by norm_num) (by norm_num)
    (by norm_num) (by norm_num) (by norm_num)

/-- C1: for every capture with `W ≥ 1`, `H ≥ 1` and buffer length `W*H*4`,
`convertImage` sets the target cell at row `r`, column `c` (`r, c < 28`) to
`(255 - L) / 255` where `L` is the average of the R, G, B channels of the
source pixel at `srcY = r*H/28`, `srcX = c*W/28` (integer division,
nearest-neighbour), exactly as the spec's §4.1 formula states. -/
theorem convertImage_cell_eq_spec (pixels : List Nat) (W H : Nat)
    (hW : 1 ≤ W) (hH : 1 ≤ H) (hlen : pixels.length = W * H * 4)
    (r c : Nat) (hr : r < 28) (hc : c < 28) :
    (convertImage pixels W H).getD (r * 28 + c) 0 = normalizeSpecCell pixels W H r c := by
  have hi : r * 28 + c < MNIST_HEIGHT * MNIST_WIDTH := by
    simp only [MNIST_HEIGHT, MNIST_WIDTH]; omega
  rw [convertImage, List.getD_eq_getElem _ _ (by simpa using hi)]
  simp only [List.getElem_map, List.getElem_range]
  have hdiv : (r * 28 + c) / MNIST_WIDTH = r := by simp only [MNIST_WIDTH]; omega
  have hmod : (r * 28 + c) % MNIST_WIDTH = c := by simp only [MNIST_WIDTH]; omega
  rw [hdiv, hmod]
  rfl

/-- C1 witness: the cell formula at a concrete 1×1 capture. -/
theorem convertImage_cell_eq_spec_witness :
    (convertImage [7, 8, 9, 255] 1 1).getD (0 * 28 + 0) 0 =
      normalizeSpecCell [7, 8, 9, 255] 1 1 0 0 :=
  convertImage_cell_eq_spec [7, 8, 9, 255] 1 1 (by norm_num) (by norm_num) (by decide)
    0 0 (by norm_num) (by norm_num)

/-- C2: for every `W ≥ 1`, `H ≥ 1` and byte buffer of length `W*H*4`,
`convertImage` produces exactly 784 values, each in the closed interval
`[0, 1]`, regardless of the input resolution. -/
theorem convertImage_length_bounds (pixels : List Nat) (W H : Nat)
    (hW : 1 ≤ W) (hH : 1 ≤ H) (hlen : pixels.length = W * H * 4)
    (hbytes : ∀ b ∈ pixels, b ≤ 255) :
    (convertImage pixels W H).length = 784 ∧
      ∀ x ∈ convertImage pixels W H, 0 ≤ x ∧ x ≤ 1 := by
  constructor
  · simp [convertImage, MNIST_HEIGHT, MNIST_WIDTH]
  · intro x hx
    rw [convertImage] at hx
    obtain ⟨i, hi, rfl⟩ := List.mem_map.mp hx
    exact convertImageCell_mem_unit hbytes W H _ _

/-- C2 witness: shape and bounds at a concrete 1×1 all-black capture. -/
theorem convertImage_length_bounds_witness :
    (convertImage [0, 0, 0, 0] 1 1).length = 784 ∧
      ∀ x ∈ convertImage [0, 0, 0, 0] 1 1, 0 ≤ x ∧ x ≤ 1 :=
  convertImage_length_bounds [0, 0, 0, 0] 1 1 (by norm_num) (by norm_num) (by decide)
    (by decide)

/-- Step of the scan of `std::max_element` (MNIST.cpp line 22): keep the
current largest value, replacing it only when strictly exceeded
(the comparison is `*largest < *it`). -/
noncomputable def maxScanStep (best x : ℝ) : ℝ := if best < x then x else best

/-- Value of `*std::max_element(first, last)` on a nonempty range:
left-to-right scan starting from the first element. -/
noncomputable def maxScan (first : ℝ) (rest : List ℝ) : ℝ :=
  rest.foldl maxScanStep first

/-- Assignment `float rowmax = *std::max_element(input.begin(), input.end());`
(MNIST.cpp line 22), for the `std::array<float, 10>` the program applies
`softmax` to: the scan starts at element 0 and visits elements 1..9. -/
noncomputable def rowmax (input : Fin 10 → ℝ) : ℝ :=
  maxScan (input 0) (List.ofFn fun j : Fin 9 => input j.succ)

/-- The accumulation `sum += std::exp(input[i] - rowmax)` of MNIST.cpp
lines 24-31: a left fold of `+` starting from `0.0f` over the exponentials,
taken in index order. -/
noncomputable def expSum (input : Fin 10 → ℝ) : ℝ :=
  ((List.ofFn input).map fun x => Real.exp (x - rowmax input)).foldl (· + ·) 0

/-- Function `softmax` (MNIST.cpp lines 19-36): `input[i] = exp(input[i] - rowmax) / sum`. -/
noncomputable def softmax (input : Fin 10 → ℝ) : Fin 10 → ℝ :=
  fun i => Real.exp (input i - rowmax input) / expSum input

/-- The starting value of the max scan never exceeds its result. -/
theorem le_maxScan (first : ℝ) (rest : List ℝ) : first ≤ maxScan first rest := by
  induction rest generalizing first with
  | nil => exact le_refl _
  | cons x xs ih =>
    simp only [maxScan, List.foldl_cons]
    refine le_trans ?_ (ih (maxScanStep first x))
    unfold maxScanStep
    split
    · exact le_of_lt (by assumption)
    · exact le_refl _

/-- No scanned element exceeds the result of the max scan. -/
theorem le_maxScan_of_mem {x : ℝ} {rest : List ℝ} (first : ℝ) (hx : x ∈ rest) :
    x ≤ maxScan first rest := by
  induction rest generalizing first with
  | nil => cases hx
  | cons y ys ih =>
    simp only [maxScan, List.foldl_cons]
    rcases List.mem_cons.mp hx with h | h
    · subst h
      refine le_trans ?_ (le_maxScan (maxScanStep first x) ys)
      unfold maxScanStep
      split
      · exact le_refl _
      · exact le_of_not_lt (by assumption)
    · exact ih (maxScanStep first y) h

/-- The max scan returns its starting value or one of the scanned elements. -/
theorem maxScan_eq_first_or_mem (first : ℝ) (rest : List ℝ) :
    maxScan first rest = first ∨ maxScan first rest ∈ rest := by
  induction rest generalizing first with
  | nil => exact Or.inl rfl
  | cons x xs ih =>
    simp only [maxScan, List.foldl_cons] at *
    rcases ih (maxScanStep first x) with h | h
    · rw [h]
      unfold maxScanStep
      split
      · exact Or.inr (List.mem_cons_self _ _)
      · exact Or.inl rfl
    · exact Or.inr (List.mem_cons_of_mem _ h)

/-- The max scan commutes with adding a constant to every value. -/
theorem maxScan_map_add (C first : ℝ) (rest : List ℝ) :
    maxScan (first + C) (rest.map (· + C)) = maxScan first rest + C := by
  induction rest generalizing first with
  | nil => rfl
  | cons x xs ih =>
    simp only [List.map_cons, maxScan, List.foldl_cons]
    have hstep : maxScanStep (first + C) (x + C) = maxScanStep first x + C := by
      unfold maxScanStep
      by_cases h : first < x
      · rw [if_pos h, if_pos (add_lt_add_right h C)]
      · rw [if_neg h, if_neg fun hc => h (lt_of_add_lt_add_right hc)]
    rw [hstep]
    exact ih (maxScanStep first x)

/-- Every input entry is bounded by `rowmax`. -/
theorem le_rowmax (input : Fin 10 → ℝ) (i : Fin 10) : input i ≤ rowmax input := by
  rcases Fin.eq_zero_or_eq_succ i with h | ⟨j, rfl⟩
  · rw [h]; exact le_maxScan _ _
  · exact le_maxScan_of_mem _ ((List.mem_ofFn _ _).mpr ⟨j, rfl⟩)

/-- The value `rowmax` is attained by some entry. -/
theorem rowmax_attained (input : Fin 10 → ℝ) : ∃ i, rowmax input = input i := by
  rcases maxScan_eq_first_or_mem (input 0) (List.ofFn fun j : Fin 9 => input j.succ)
    with h | h
  · exact ⟨0, h⟩
  · obtain ⟨j, hj⟩ := (List.mem_ofFn _ _).mp h
    exact ⟨j.succ, hj.symm⟩

/-- The scan `rowmax` commutes with a uniform shift of the logits. -/
theorem rowmax_shift (input : Fin 10 → ℝ) (C : ℝ) :
    rowmax (fun i => input i + C) = rowmax input + C := by
  have hmap : (List.ofFn fun j : Fin 9 => input j.succ + C)
      = (List.ofFn fun j : Fin 9 => input j.succ).map (· + C) := by
    rw [List.map_ofFn]; rfl
  simp only [rowmax]
  rw [hmap]
  exact maxScan_map_add C (input 0) _

/-- The left fold of `+` over the exponentials is the finite sum. -/
theorem expSum_eq_sum (input : Fin 10 → ℝ) :
    expSum input = ∑ j, Real.exp (input j - rowmax input) := by
  have hfold : ∀ (l : List ℝ) (a : ℝ), l.foldl (· + ·) a = a + l.sum := by
    intro l
    induction l with
    | nil => intro a; simp
    | cons x xs ih =>
      intro a
      rw [List.foldl_cons, ih, List.sum_cons]
      ring
  rw [expSum, hfold, zero_add, List.map_ofFn]
  exact List.sum_ofFn

/-- The softmax denominator is positive. -/
theorem expSum_pos (input : Fin 10 → ℝ) : 0 < expSum input := by
  rw [expSum_eq_sum]
  exact Finset.sum_pos (fun i _ => Real.exp_pos _) Finset.univ_nonempty

/-- The softmax formula exactly as the spec's §4.3 words it:
`p_i = exp(logit_i - max(logits)) / Σ_j exp(logit_j - max(logits))`,
with `max` the true maximum of the ten logits. -/
noncomputable def softmaxSpec (input : Fin 10 → ℝ) : Fin 10 → ℝ :=
  fun i => Real.exp (input i - Finset.univ.sup' Finset.univ_nonempty input) /
    ∑ j, Real.exp (input j - Finset.univ.sup' Finset.univ_nonempty input)

/-- The scanned `rowmax` is the true maximum of the ten entries. -/
theorem rowmax_eq_max (input : Fin 10 → ℝ) :
    rowmax input = Finset.univ.sup' Finset.univ_nonempty input := by
  apply le_antisymm
  · obtain ⟨i, hi⟩ := rowmax_attained input
    rw [hi]
    exact Finset.le_sup' input (Finset.mem_univ i)
  · exact Finset.sup'_le _ _ fun i _ => le_rowmax input i

/-- C3: the program's softmax equals the max-subtraction reference definition
`p_i = exp(logit_i - max(logits)) / Σ_j exp(logit_j - max(logits))`, the single
`rowmax` computed by `std::max_element` before any exponentiation being the
true maximum of the logits. -/
theorem softmax_eq_spec : ∀ input : Fin 10 → ℝ, softmax input = softmaxSpec input := by
  intro input
  funext i
  simp only [softmax, softmaxSpec]
  rw [expSum_eq_sum, rowmax_eq_max]

/-- C4: for every real 10-element logit vector, the softmax output has every
entry nonnegative, and its entries sum to 1 within the spec's `1e-5`
tolerance (over the reals the sum is exactly 1). -/
theorem softmax_nonneg_sum_one : ∀ input : Fin 10 → ℝ,
    (∀ i, 0 ≤ softmax input i) ∧ |(∑ i, softmax input i) - 1| ≤ 1e-5 := by
  intro input
  have hpos := expSum_pos input
  constructor
  · intro i
    exact div_nonneg (Real.exp_pos _).le hpos.le
  · have hsum : (∑ i, softmax input i) = 1 := by
      simp only [softmax]
      rw [← Finset.sum_div, ← expSum_eq_sum input, div_self (ne_of_gt hpos)]
    rw [hsum]
    norm_num

/-- C8: adding any constant `C` to all logits leaves the softmax output
unchanged. -/
theorem softmax_shift_invariant : ∀ (input : Fin 10 → ℝ) (C : ℝ),
    softmax (fun i => input i + C) = softmax input := by
  intro input C
  funext i
  simp only [softmax, expSum_eq_sum, rowmax_shift]
  simp only [show ∀ x : ℝ, x + C - (rowmax input + C) = x - rowmax input from
    fun x => by ring]

/-- Step of the arg-max scan of `std::max_element` over `results_`
(MNIST.cpp lines 74-75): the running best index is replaced only when the
value at the new index strictly exceeds the value at the best index. -/
noncomputable def argmaxStep (f : Fin 10 → ℝ) (best i : Fin 10) : Fin 10 :=
  if f best < f i then i else best

/-- Expression `std::distance(results_.begin(), std::max_element(results_.begin(),
results_.end()))` (MNIST.cpp lines 74-75): the index of the first maximum,
found by a left-to-right scan starting at index 0 and visiting indices 1..9. -/
noncomputable def argmaxScan (f : Fin 10 → ℝ) : Fin 10 :=
  (List.ofFn fun j : Fin 9 => j.succ).foldl (argmaxStep f) 0

/-- Decision part of `MNISTModel::Run` after the engine call (MNIST.cpp lines 70-76): apply
`softmax` to the raw logits in `results_`, then return the index of the first
maximum probability. -/
noncomputable def runDecision (logits : Fin 10 → ℝ) : Fin 10 :=
  argmaxScan (softmax logits)

/-- Invariant of the arg-max fold: when the pending index list is sorted and
all pending indices exceed the accumulator, the fold returns an index drawn
from the scanned indices whose value is maximal, and every strictly smaller
scanned index has a strictly smaller value (first-maximum tie-breaking). -/
theorem argmax_foldl_invariant (f : Fin 10 → ℝ) :
    ∀ (l : List (Fin 10)) (b : Fin 10), (b :: l).Pairwise (· < ·) →
      (l.foldl (argmaxStep f) b ∈ b :: l) ∧
      (∀ j ∈ b :: l, f j ≤ f (l.foldl (argmaxStep f) b)) ∧
      (∀ j ∈ b :: l, j < l.foldl (argmaxStep f) b → f j < f (l.foldl (argmaxStep f) b)) := by
  intro l
  induction l with
  | nil =>
    intro b _
    simp only [List.foldl_nil]
    refine ⟨List.mem_cons_self _ _, ?_, ?_⟩
    · intro j hj
      have hjb : j = b := by simpa using hj
      subst hjb
      exact le_rfl
    · intro j hj hlt
      have hjb : j = b := by simpa using hj
      subst hjb
      exact absurd hlt (lt_irrefl _)
  | cons x xs ih =>
    intro b hp
    have hbx : b < x := (List.pairwise_cons.mp hp).1 x (List.mem_cons_self _ _)
    have hbxs : ∀ z ∈ xs, b < z := fun z hz =>
      (List.pairwise_cons.mp hp).1 z (List.mem_cons_of_mem _ hz)
    have hp' : (x :: xs).Pairwise (· < ·) := (List.pairwise_cons.mp hp).2
    have hpxs : xs.Pairwise (· < ·) := (List.pairwise_cons.mp hp').2
    simp only [List.foldl_cons]
    by_cases hfbx : f b < f x
    · -- the first step updates the best index to `x`
      have hb' : argmaxStep f b x = x := by rw [argmaxStep, if_pos hfbx]
      rw [hb']
      obtain ⟨hmem, hle, hlt⟩ := ih x hp'
      refine ⟨List.mem_cons_of_mem _ hmem, ?_, ?_⟩
      · intro j hj
        rcases List.mem_cons.mp hj with h | h
        · subst h
          exact le_trans (le_of_lt hfbx) (hle x (List.mem_cons_self _ _))
        · exact hle j h
      · intro j hj hjr
        rcases List.mem_cons.mp hj with h | h
        · subst h
          exact lt_of_lt_of_le hfbx (hle x (List.mem_cons_self _ _))
        · exact hlt j h hjr
    · -- the first step keeps the best index `b`
      have hb' : argmaxStep f b x = b := by rw [argmaxStep, if_neg hfbx]
      rw [hb']
      have hpb : (b :: xs).Pairwise (· < ·) := List.pairwise_cons.mpr ⟨hbxs, hpxs⟩
      obtain ⟨hmem, hle, hlt⟩ := ih b hpb
      have hfxb : f x ≤ f b := le_of_not_lt hfbx
      refine ⟨?_, ?_, ?_⟩
      · rcases List.mem_cons.mp hmem with h | h
        · rw [h]; exact List.mem_cons_self _ _
        · exact List.mem_cons_of_mem _ (List.mem_cons_of_mem _ h)
      · intro j hj
        rcases List.mem_cons.mp hj with h | h
        · subst h
          exact hle j (List.mem_cons_self _ _)
        · rcases List.mem_cons.mp h with h2 | h2
          · subst h2
            exact le_trans hfxb (hle b (List.mem_cons_self _ _))
          · exact hle j (List.mem_cons_of_mem _ h2)
      · intro j hj hjr
        rcases List.mem_cons.mp hj with h | h
        · subst h
          exact hlt j (List.mem_cons_self _ _) hjr
        · rcases List.mem_cons.mp h with h2 | h2
          · subst h2
            -- `j = x`: the result is strictly above `b`, hence above `x`
            have hrb : xs.foldl (argmaxStep f) b ≠ b := by
              intro hcon
              rw [hcon] at hjr
              exact absurd hjr (asymm hbx)
            have hrxs : xs.foldl (argmaxStep f) b ∈ xs := by
              rcases List.mem_cons.mp hmem with h3 | h3
              · exact absurd h3 hrb
              · exact h3
            have hblt : b < xs.foldl (argmaxStep f) b := hbxs _ hrxs
            have hfb : f b < f (xs.foldl (argmaxStep f) b) :=
              hlt b (List.mem_cons_self _ _) hblt
            exact lt_of_le_of_lt hfxb hfb
          · exact hlt j (List.mem_cons_of_mem _ h2) hjr

/-- The arg-max scan returns an index of maximal value, and among equal-valued
maxima it returns the lowest index. -/
theorem argmaxScan_spec (f : Fin 10 → ℝ) :
    (∀ j, f j ≤ f (argmaxScan f)) ∧
      (∀ j, f j = f (argmaxScan f) → argmaxScan f ≤ j) := by
  have hcover : ∀ j : Fin 10, j ∈ (0 : Fin 10) :: List.ofFn (fun j : Fin 9 => j.succ) := by
    decide
  have hpair : ((0 : Fin 10) :: List.ofFn fun j : Fin 9 => j.succ).Pairwise (· < ·) := by
    decide
  obtain ⟨hmem, hle, hlt⟩ :=
    argmax_foldl_invariant f (List.ofFn fun j : Fin 9 => j.succ) 0 hpair
  constructor
  · intro j
    exact hle j (hcover j)
  · intro j hj
    by_contra hcon
    have hjr : j < argmaxScan f := lt_of_not_le hcon
    exact absurd hj (ne_of_lt (hlt j (hcover j) hjr))

/-- C5: the class returned by `Run` is the index of the maximum probability,
ties broken by the first (lowest) index; in particular the all-equal logit
vector yields predicted class 0. -/
theorem runDecision_first_argmax :
    (∀ (logits : Fin 10 → ℝ) (j : Fin 10),
        softmax logits j ≤ softmax logits (runDecision logits) ∧
          (softmax logits j = softmax logits (runDecision logits) →
            runDecision logits ≤ j)) ∧
      runDecision (fun _ => (0 : ℝ)) = 0 := by
  have hmain : ∀ (logits : Fin 10 → ℝ) (j : Fin 10),
      softmax logits j ≤ softmax logits (runDecision logits) ∧
        (softmax logits j = softmax logits (runDecision logits) →
          runDecision logits ≤ j) := fun logits j =>
    ⟨(argmaxScan_spec (softmax logits)).1 j, (argmaxScan_spec (softmax logits)).2 j⟩
  refine ⟨hmain, ?_⟩
  have h0 : softmax (fun _ => (0 : ℝ)) 0
      = softmax (fun _ => (0 : ℝ)) (runDecision fun _ => (0 : ℝ)) := rfl
  exact Fin.le_zero_iff.mp ((hmain (fun _ => (0 : ℝ)) 0).2 h0)

/-- C5 witness: at the all-zero logit vector all probabilities are equal, so
the tie-breaking clause applied at index 1 pins the decision at or below 1. -/
theorem runDecision_first_argmax_witness :
    runDecision (fun _ => (0 : ℝ)) ≤ 1 :=
  (runDecision_first_argmax.1 (fun _ => (0 : ℝ)) 1).2 rfl

/-- Softmax is strictly monotone in each comparison: it never changes the
relative order of two entries. -/
theorem softmax_lt_iff (l : Fin 10 → ℝ) (i j : Fin 10) :
    softmax l i < softmax l j ↔ l i < l j := by
  simp only [softmax]
  rw [div_lt_div_iff_of_pos_right (expSum_pos l), Real.exp_lt_exp,
    sub_lt_sub_iff_right]

/-- C10: the class index returned by `Run` — the left-to-right arg-max of the
softmaxed outputs — equals the left-to-right arg-max of the raw logits, so
deciding on probabilities and deciding on raw logits are equivalent. -/
theorem runDecision_eq_raw_argmax : ∀ logits : Fin 10 → ℝ,
    runDecision logits = argmaxScan logits := by
  intro logits
  unfold runDecision argmaxScan
  apply List.foldl_ext
  intro b i _
  unfold argmaxStep
  exact if_congr (softmax_lt_iff logits b i) rfl rfl

/-- An `Ort::Exception` thrown by the ONNX Runtime engine, carrying the
diagnostic printed by `e.what()`. -/
structure OrtError where
  msg : String

/-- One snapshot of the drawing surface as handed to `convertImage`
(MNIST.cpp lines 225-231): the RGBA byte buffer plus its dimensions. -/
structure Capture where
  pixels : List Nat
  width : Nat
  height : Nat

/-- Modelled from the spec: the pre-trained model artifact consumed by the
external ONNX Runtime (not part of this repository) — whether its path is
readable, and its declared input and output tensor shapes. -/
structure ModelFile where
  readable : Bool
  inputShape : List Nat
  outputShape : List Nat

/-- Modelled from the spec: the external ONNX Runtime session constructor
invoked at MNIST.cpp line 45 (`Ort::Session(env_, model_path, ...)`), whose
implementation is not in this repository.  Per spec §4.2 it throws
(`Except.error`) exactly when the model path is unreadable or the model's
declared shapes do not match the fixed contract (1×1×28×28 input, 1×10
output), and returns normally otherwise. -/
def loadSession (m : ModelFile) : Except OrtError Unit :=
  if m.readable = true ∧ m.inputShape = [1, 1, 28, 28] ∧ m.outputShape = [1, 10] then
    Except.ok ()
  else
    Except.error ⟨"unreadable model path or tensor shape mismatch"⟩

/-- Possible fates of the process in this model: `exited code` is a normal
`return code;` from `main`; `crashed e` is a C++ exception that reached the
top of `main` with no handler (`std::terminate`). -/
inductive ProcessOutcome where
  | exited (code : Int)
  | crashed (err : OrtError)

/-- Function `MNISTModel::Run` (MNIST.cpp lines 62-77).  The engine call
`session_.Run(...)` is external; its behaviour is the parameter `run`, which
per spec §4.2 returns the ten raw logits or throws on a runtime fault.  `Run`
itself installs no handler: a fault propagates to the caller.  On success the
logits are softmaxed in place and the index of the first maximum is returned
together with the probabilities left in `results_`. -/
noncomputable def modelRun (run : List ℚ → Except OrtError (Fin 10 → ℝ))
    (input_image : List ℚ) : Except OrtError (Fin 10 × (Fin 10 → ℝ)) := do
  let logits ← run input_image
  let probs := softmax logits
  pure (argmaxScan probs, probs)

/-- The mouse-release arm of the SDL event loop (MNIST.cpp lines 220-241),
iterated over the successive captures the user produces: each release converts
the snapshot and calls `Run`.  There is no try/catch anywhere in the loop or
around it, so an engine fault escapes `main` — modelled as
`ProcessOutcome.crashed`.  Closing the window ends the loop and `main` returns
0 (MNIST.cpp line 281). -/
noncomputable def eventLoop (run : List ℚ → Except OrtError (Fin 10 → ℝ)) :
    List Capture → ProcessOutcome
  | [] => ProcessOutcome.exited 0
  | cap :: rest =>
    match modelRun run (convertImage cap.pixels cap.width cap.height) with
    | Except.error e => ProcessOutcome.crashed e
    | Except.ok _ => eventLoop run rest

/-- Function `main` (MNIST.cpp lines 129-282) as far as the core is concerned: model
construction is guarded by `try { ... } catch (const Ort::Exception& e)`
(lines 135-140), which prints the diagnostic and returns -1; on success the
event loop runs unguarded. -/
noncomputable def mainOutcome (load : Except OrtError Unit)
    (run : List ℚ → Except OrtError (Fin 10 → ℝ)) (caps : List Capture) :
    ProcessOutcome :=
  match load with
  | Except.error _ => ProcessOutcome.exited (-1)
  | Except.ok () => eventLoop run caps

/-- C7: when the model path is unreadable or the declared shapes do not match
the fixed contract, loading fails with a model-load error, and the process
aborts with the controlled diagnostic exit `-1` — never an uncontrolled
crash. -/
theorem load_failure_exits (m : ModelFile)
    (run : List ℚ → Except OrtError (Fin 10 → ℝ)) (caps : List Capture)
    (hbad : m.readable = false ∨ m.inputShape ≠ [1, 1, 28, 28] ∨
      m.outputShape ≠ [1, 10]) :
    (∃ e, loadSession m = Except.error e) ∧
      mainOutcome (loadSession m) run caps = ProcessOutcome.exited (-1) := by
  have hcond : ¬ (m.readable = true ∧ m.inputShape = [1, 1, 28, 28] ∧
      m.outputShape = [1, 10]) := by
    rcases hbad with h | h | h <;> simp [h]
  rw [loadSession, if_neg hcond]
  exact ⟨⟨_, rfl⟩, rfl⟩

/-- C7 witness: a nonexistent (unreadable) model file yields the diagnostic
exit. -/
theorem load_failure_exits_witness :
    (∃ e, loadSession ⟨false, [1, 1, 28, 28], [1, 10]⟩ = Except.error e) ∧
      mainOutcome (loadSession ⟨false, [1, 1, 28, 28], [1, 10]⟩)
        (fun _ => Except.error ⟨"unused"⟩) [] = ProcessOutcome.exited (-1) :=
  load_failure_exits ⟨false, [1, 1, 28, 28], [1, 10]⟩
    (fun _ => Except.error ⟨"unused"⟩) [] (Or.inl rfl)

/-- C6 counterexample: a concrete run in which the engine reports a runtime
fault during the classify call.  Contrary to the claim, the failure is not
surfaced as a recoverable result: no handler exists between `session_.Run`
and the top of `main`, so the process crashes instead of remaining
interactive. -/
theorem inference_fault_crash_cex :
    mainOutcome (Except.ok ()) (fun _ => Except.error ⟨"shape mismatch at run time"⟩)
      [⟨List.replicate 4 255, 1, 1⟩] =
      ProcessOutcome.crashed ⟨"shape mismatch at run time"⟩ := rfl

/-- C6 (amended): when the engine reports a runtime fault during the classify
call of any event-loop iteration, the exception propagates uncaught out of
`Run` and out of `main`: the process crashes and that request yields no
prediction.  Only construction-time faults are caught. -/
theorem inference_fault_crashes (run : List ℚ → Except OrtError (Fin 10 → ℝ))
    (e : OrtError) (cap : Capture) (rest : List Capture)
    (h : run (convertImage cap.pixels cap.width cap.height) = Except.error e) :
    mainOutcome (Except.ok ()) run (cap :: rest) = ProcessOutcome.crashed e := by
  have hrun : modelRun run (convertImage cap.pixels cap.width cap.height)
      = Except.error e := by
    rw [modelRun, h]
    rfl
  simp only [mainOutcome, eventLoop, hrun]

/-- C6 (amended) witness: a concrete always-faulting engine crashes the
process on the first release event. -/
theorem inference_fault_crashes_witness :
    mainOutcome (Except.ok ()) (fun _ => Except.error ⟨"allocator failure"⟩)
      [⟨[], 1, 1⟩] = ProcessOutcome.crashed ⟨"allocator failure"⟩ :=
  inference_fault_crashes (fun _ => Except.error ⟨"allocator failure"⟩)
    ⟨"allocator failure"⟩ ⟨[], 1, 1⟩ [] rfl
